import Mathlib

/-!
Verification of the data-enrichment ETL pipeline (`src/exa_service.py`).

The embedding models the typed response objects of the remote collaborator
(Webset, Item, Enrichment), the flat record produced per item, the
flatten step of `webset_to_dataframe`, the email validation wrapper
`__validate_email` (the external `email_validator` library is an oracle
parameter), and the concat / drop_duplicates / sort_values pipeline shared
by `websets_to_dataframe` and `combine_saved_df`.

The sort step `sort_values(by="Vertical", ascending=True)` uses the pandas
default `kind="quicksort"`, which for an object column is numpy argsort with
introsort (`npy_aquicksort`): median-of-3 quicksort partitions for ranges of
more than 16 elements, an insertion sort below that, and a heapsort fallback
once the depth limit is exhausted.  That algorithm is modelled faithfully
below because its tie-breaking behaviour decides the stability and
idempotence claims.
-/

/-! ## Data model -/

/-- Company sub-record of a company-shaped item (`properties.company`). -/
structure CompanyFields where
  name : String
  location : Option String
  employees : Option Nat
  industry : Option String
deriving DecidableEq

/-- Company-shaped item properties (`WebsetItemCompanyProperties`). -/
structure CompanyProps where
  company : CompanyFields
  url : String
  description : String
deriving DecidableEq

/-- The shape of `item.properties`: either the company shape required by the
flatten step, or any of the other shapes of the remote schema. -/
inductive ItemProps where
  | companyShaped (p : CompanyProps)
  | otherShaped
deriving DecidableEq

/-- Whether the properties pass `isinstance(properties, WebsetItemCompanyProperties)`. -/
def ItemProps.isCompanyShaped : ItemProps → Bool
  | .companyShaped _ => true
  | .otherShaped => false

/-- One enrichment entry of an item: an optional result list and an optional
reasoning string. -/
structure Enrichment where
  result : Option (List String)
  reasoning : Option String
deriving DecidableEq

/-- One item of a webset. -/
structure Item where
  properties : ItemProps
  enrichments : List Enrichment
deriving DecidableEq

/-- A fetched webset: its title (used as the vertical label) and its items
field, which is absent when the webset was fetched without items expanded. -/
structure Webset where
  title : String
  items : Option (List Item)
deriving DecidableEq

/-- One flat record of the output table, with the fixed field set. -/
structure Row where
  companyName : String
  vertical : String
  moneyRaised : Option String
  ceoEmail : Option String
  location : Option String
  employees : Option Nat
  industry : Option String
  url : String
  description : String
  emailReasoning : Option String
  financialsReasoning : Option String
deriving DecidableEq, Inhabited

/-- Errors surfaced by the pipeline: the two assertion failures of
`webset_to_dataframe` (the spec taxonomy calls them SchemaViolation and
MissingItems) and the ValueError raised by `pd.concat` on an empty list. -/
inductive EtlError where
  | schemaViolation
  | missingItems
  | noObjectsToConcatenate
deriving DecidableEq

/-! ## Email validation (`__validate_email`)

The external `email_validator.validate_email` call is modelled as an oracle:
for a given string it either returns normally, raises
`EmailNotValidError`, or raises some other exception. -/

/-- Possible outcomes of the external `email_validator.validate_email` call. -/
inductive LibOutcome where
  | ok
  | notValid
  | otherError
deriving DecidableEq

/-- Embedding of `__validate_email`: returns the input unchanged when the
library call returns normally; both `except` clauses return `None`. -/
def validateEmail (lib : String → LibOutcome) (email : String) : Option String :=
  match lib email with
  | .ok => some email
  | .notValid => none
  | .otherError => none

/-! ## Record flattening (per-item body of `webset_to_dataframe`) -/

/-- The first element of the result list when the result is truthy
(`if item.enrichments[k].result: ... result[0]`); `None` and the empty
list are falsy. -/
def firstResult (e : Enrichment) : Option String :=
  match e.result with
  | some (x :: _) => some x
  | _ => none

/-- Default enrichment used only to spell list indexing. -/
def emptyEnrichment : Enrichment := { result := none, reasoning := none }

/-- Embedding of the loop body of `webset_to_dataframe`: checks the two
assertions (company-shaped properties, exactly two enrichments), builds the
flat record, and pipes a truthy captured email through `__validate_email`.
A falsy captured email (absent or the empty string) skips validation. -/
def flatten (lib : String → LibOutcome) (verticalTitle : String) (item : Item) :
    Except EtlError Row :=
  match item.properties with
  | .otherShaped => .error .schemaViolation
  | .companyShaped p =>
    if item.enrichments.length = 2 then
      let e0 := item.enrichments.getD 0 emptyEnrichment
      let e1 := item.enrichments.getD 1 emptyEnrichment
      let email := firstResult e0
      let ceoEmail : Option String :=
        match email with
        | none => none
        | some s =>
          if s = "" then some s
          else
            match validateEmail lib s with
            | some v => some v
            | none => none
      .ok { companyName := p.company.name
            vertical := verticalTitle
            moneyRaised := firstResult e1
            ceoEmail := ceoEmail
            location := p.company.location
            employees := p.company.employees
            industry := p.company.industry
            url := p.url
            description := p.description
            emailReasoning := e0.reasoning
            financialsReasoning := e1.reasoning }
    else .error .schemaViolation

/-- The item loop of `webset_to_dataframe`: flattens items in order,
appending each record; the first failing item aborts the whole build. -/
def flattenAll (lib : String → LibOutcome) (title : String) :
    List Item → Except EtlError (List Row)
  | [] => .ok []
  | it :: rest =>
    match flatten lib title it with
    | .error e => .error e
    | .ok r =>
      match flattenAll lib title rest with
      | .error e => .error e
      | .ok rs => .ok (r :: rs)

/-- Embedding of the pure core of `webset_to_dataframe`: asserts that the
items field is present, then flattens every item in order. -/
def websetToDataframe (lib : String → LibOutcome) (w : Webset) :
    Except EtlError (List Row) :=
  match w.items with
  | none => .error .missingItems
  | some items => flattenAll lib w.title items

/-! ## Deduplication (`drop_duplicates(subset=["Company Name"])`) -/

/-- Worker of the dedup step: keeps a row exactly when its company name was
not seen in an earlier kept-or-dropped position. -/
def dedupAux (seen : List String) : List Row → List Row
  | [] => []
  | r :: rest =>
    if r.companyName ∈ seen then dedupAux seen rest
    else r :: dedupAux (r.companyName :: seen) rest

/-- Embedding of `drop_duplicates(subset=["Company Name"])` with the default
`keep="first"`: for every distinct company name the first row in order is
kept, every later row with that name is dropped. -/
def dedupByName (rows : List Row) : List Row := dedupAux [] rows

/-! ## The sort step (`sort_values(by="Vertical", ascending=True)`)

pandas `DataFrame.sort_values` on a single object column with the default
`kind="quicksort"` computes the row permutation with numpy
`argsort(kind="quicksort")`, which is the indirect introsort
`npy_aquicksort`: median-of-3 quicksort partitioning while the current
range holds more than `SMALL_QUICKSORT = 15` plus one elements, an
insertion sort for small ranges, and `npy_aheapsort` once the depth limit
`2 * msb(n)` is exhausted.  Python string comparison is codepoint
lexicographic, which is exactly the `<` of `String` here. -/

/-- Lexicographic comparison of codepoint sequences: the comparison the
`PyObject_RichCompare` calls of the numpy compare function perform on
Python strings. -/
def charListLt : List Char → List Char → Bool
  | _, [] => false
  | [], _ :: _ => true
  | a :: as, b :: bs =>
    if a.toNat < b.toNat then true
    else if b.toNat < a.toNat then false
    else charListLt as bs

/-- Strict string comparison used by the sort (codepoint lexicographic). -/
def strLt (a b : String) : Bool := charListLt a.data b.data

/-- Key lookup for the indirect sort: the key at index `i`. -/
def keyD (ks : List String) (i : Nat) : String := ks.getD i ""

/-- Stable insertion of index `i` into an index list: `i` is placed before
the first index holding a strictly larger key, hence after every index with
an equal key.  This is the insertion step of the small-range phase of
`npy_aquicksort` (which shifts entries right while the new key is strictly
smaller). -/
def insertIdx (ks : List String) (i : Nat) : List Nat → List Nat
  | [] => [i]
  | j :: rest =>
    if strLt (keyD ks i) (keyD ks j) then i :: j :: rest
    else j :: insertIdx ks i rest

/-- The insertion-sort phase of `npy_aquicksort` on an index list: inserts
the indices left to right, each into the sorted part built so far. -/
def insertionSortIdx (ks : List String) (l : List Nat) : List Nat :=
  l.foldl (fun acc i => insertIdx ks i acc) []

/-- Insertion sort applied to the sub-range `[pl, pr]` of the index list,
as done by the small-range phase of `npy_aquicksort`. -/
def insertionSegment (ks : List String) (t : List Nat) (pl pr : Nat) : List Nat :=
  t.take pl ++ insertionSortIdx ks ((t.drop pl).take (pr + 1 - pl)) ++ t.drop (pr + 1)

/-- Swap of two positions of the index list. -/
def swapIdx (t : List Nat) (a b : Nat) : List Nat :=
  let x := t.getD a 0
  let y := t.getD b 0
  (t.set a y).set b x

/-- Key at position `p` of the index list (the value `v[*p]` of the C code). -/
def valAt (ks : List String) (t : List Nat) (p : Nat) : String :=
  keyD ks (t.getD p 0)

/-- The scan `do ++pi; while (LT(v[*pi], vp));` after the initial increment:
advances while the key at the position is strictly below the pivot. -/
def scanUpFrom (ks : List String) (t : List Nat) (vp : String) : Nat → Nat → Nat
  | 0, p => p
  | fuel + 1, p => if strLt (valAt ks t p) vp then scanUpFrom ks t vp fuel (p + 1) else p

/-- The scan `do --pj; while (LT(vp, v[*pj]));` after the initial decrement:
retreats while the key at the position is strictly above the pivot. -/
def scanDownFrom (ks : List String) (t : List Nat) (vp : String) : Nat → Nat → Nat
  | 0, p => p
  | fuel + 1, p => if strLt vp (valAt ks t p) then scanDownFrom ks t vp fuel (p - 1) else p

/-- The partition exchange loop of `npy_aquicksort`: repeatedly advance
`pi`, retreat `pj`, stop when they cross, otherwise swap and continue.
Returns the final index list and the crossing position `pi`. -/
def partitionLoop (ks : List String) : Nat → List Nat → String → Nat → Nat →
    List Nat × Nat
  | 0, t, _, p, _ => (t, p)
  | fuel + 1, t, vp, pi, pj =>
    let pi2 := scanUpFrom ks t vp (t.length + 1) (pi + 1)
    let pj2 := scanDownFrom ks t vp (t.length + 1) (pj - 1)
    if pi2 ≥ pj2 then (t, pi2)
    else partitionLoop ks fuel (swapIdx t pi2 pj2) vp pi2 pj2

/-- One quicksort partition round of `npy_aquicksort` on the range
`[pl, pr]`: median-of-3 of the first, middle and last keys, pivot moved to
`pr - 1`, exchange scan, pivot swapped back to the crossing position. -/
def partitionStep (ks : List String) (t : List Nat) (pl pr : Nat) : List Nat × Nat :=
  let pm := pl + (pr - pl) / 2
  let t := if strLt (valAt ks t pm) (valAt ks t pl) then swapIdx t pm pl else t
  let t := if strLt (valAt ks t pr) (valAt ks t pm) then swapIdx t pr pm else t
  let t := if strLt (valAt ks t pm) (valAt ks t pl) then swapIdx t pm pl else t
  let vp := valAt ks t pm
  let pj := pr - 1
  let t := swapIdx t pm pj
  let (t, pi) := partitionLoop ks (t.length + 1) t vp pl pj
  let t := swapIdx t pi (pr - 1)
  (t, pi)

/-- Element `a[i]` of the one-based view `a = tosort + lo - 1` used by
`npy_aheapsort` on a sub-range starting at `lo`. -/
def aD (t : List Nat) (lo i : Nat) : Nat := t.getD (lo + i - 1) 0

/-- The sift-down loop shared by both phases of `npy_aheapsort`. -/
def siftDown (ks : List String) (lo : Nat) : Nat → List Nat → Nat → Nat → Nat → Nat →
    List Nat
  | 0, t, tmp, i, _, _ => t.set (lo + i - 1) tmp
  | fuel + 1, t, tmp, i, j, n =>
    if j ≤ n then
      let j := if j < n && strLt (keyD ks (aD t lo j)) (keyD ks (aD t lo (j + 1)))
               then j + 1 else j
      if strLt (keyD ks tmp) (keyD ks (aD t lo j)) then
        siftDown ks lo fuel (t.set (lo + i - 1) (aD t lo j)) tmp j (j + j) n
      else t.set (lo + i - 1) tmp
    else t.set (lo + i - 1) tmp

/-- The heapify phase of `npy_aheapsort`: sift-down for `l = n/2` down to 1. -/
def heapify (ks : List String) (lo n : Nat) (t : List Nat) : List Nat :=
  (List.range (n / 2)).foldl
    (fun t k =>
      let l := n / 2 - k
      siftDown ks lo (n + 2) t (aD t lo l) l (l + l) n) t

/-- The extraction phase of `npy_aheapsort`: repeatedly move the root behind
the shrinking heap and sift the displaced element down. -/
def heapExtract (ks : List String) (lo : Nat) : Nat → List Nat → List Nat
  | 0, t => t
  | 1, t => t
  | n + 2, t =>
    let m := n + 2
    let tmp := aD t lo m
    let t := t.set (lo + m - 1) (aD t lo 1)
    let t := siftDown ks lo (m + 2) t tmp 1 2 (m - 1)
    heapExtract ks lo (n + 1) t

/-- Fallback `npy_aheapsort` on the sub-range of length `n` starting at `lo`. -/
def aheapsortSeg (ks : List String) (t : List Nat) (lo n : Nat) : List Nat :=
  heapExtract ks lo n (heapify ks lo n t)

/-- Worker for `msbNat`, recursing on explicit fuel so that it reduces. -/
def msbAux : Nat → Nat → Nat
  | 0, _ => 0
  | fuel + 1, n => if n ≥ 2 then msbAux fuel (n / 2) + 1 else 0

/-- Position of the most significant bit (`npy_get_msb`). -/
def msbNat (n : Nat) : Nat := msbAux n n

/-- The main loop of `npy_aquicksort` over the explicit range stack:
partition while the range holds more than 16 entries (heapsort once the
depth budget is spent), insertion sort below that, then pop the next range. -/
def qsortLoop (ks : List String) : Nat → List Nat → Nat → Nat →
    List (Nat × Nat) → Int → List Nat
  | 0, t, _, _, _, _ => t
  | fuel + 1, t, pl, pr, stack, depth =>
    if pr - pl > 15 then
      if depth < 0 then
        let t := aheapsortSeg ks t pl (pr - pl + 1)
        match stack with
        | [] => t
        | (pl2, pr2) :: rest => qsortLoop ks fuel t pl2 pr2 rest depth
      else
        let (t2, pi) := partitionStep ks t pl pr
        if pi - pl < pr - pi then
          qsortLoop ks fuel t2 pl (pi - 1) ((pi + 1, pr) :: stack) (depth - 1)
        else
          qsortLoop ks fuel t2 (pi + 1) pr ((pl, pi - 1) :: stack) (depth - 1)
    else
      let t := insertionSegment ks t pl pr
      match stack with
      | [] => t
      | (pl2, pr2) :: rest => qsortLoop ks fuel t pl2 pr2 rest depth

/-- numpy `argsort(kind="quicksort")` on a list of string keys: the
permutation (as an index list) that pandas applies to the rows. -/
def npArgsort (ks : List String) : List Nat :=
  let n := ks.length
  qsortLoop ks (2 * n + 8) (List.range n) 0 (n - 1) [] (2 * (msbNat n : Int))

/-- Take the rows in the order given by an index list. -/
def applyIdx (rows : List Row) (p : List Nat) : List Row :=
  p.map (fun i => rows.getD i default)

/-- The key column of the sort: the Vertical field of every row. -/
def verticalKeys (rows : List Row) : List String := rows.map (fun r => r.vertical)

/-- Embedding of `sort_values(by="Vertical", ascending=True)` with the
default unstable quicksort kind. -/
def sortByVertical (rows : List Row) : List Row :=
  applyIdx rows (npArgsort (verticalKeys rows))

/-- The order a stable ascending sort by key must realize on index lists:
position `i` comes before position `j` when its key is strictly smaller,
or when the keys are equal and `i` was earlier. -/
def stableRel (ks : List String) (i j : Nat) : Prop :=
  strLt (keyD ks i) (keyD ks j) = true ∨ (keyD ks i = keyD ks j ∧ i < j)

/-! ## The shared concat / dedup / sort pipeline and its two callers -/

/-- Embedding of the shared tail of `websets_to_dataframe` and
`combine_saved_df`: `pd.concat` (raising on an empty input list as pandas
does), `drop_duplicates(subset=["Company Name"])`, then
`sort_values(by="Vertical", ascending=True)`. -/
def mergeDedupSort (tables : List (List Row)) : Except EtlError (List Row) :=
  match tables with
  | [] => .error .noObjectsToConcatenate
  | _ => .ok (sortByVertical (dedupByName tables.flatten))

/-- The webset loop of `websets_to_dataframe`: materializes every webset in
listing order, aborting on the first failure. -/
def materializeAll (lib : String → LibOutcome) :
    List Webset → Except EtlError (List (List Row))
  | [] => .ok []
  | w :: rest =>
    match websetToDataframe lib w with
    | .error e => .error e
    | .ok df =>
      match materializeAll lib rest with
      | .error e => .error e
      | .ok dfs => .ok (df :: dfs)

/-- Embedding of `websets_to_dataframe` over the already-listed websets. -/
def websetsToDataframe (lib : String → LibOutcome) (websets : List Webset) :
    Except EtlError (List Row) :=
  match materializeAll lib websets with
  | .error e => .error e
  | .ok dfs => mergeDedupSort dfs

/-! ## Filenames and the disk merger (`combine_saved_df`) -/

/-- The fixed name pattern `CLEAN_DF_NAME_PATTERN` of the disk merger. -/
def cleanDfNamePattern : String := "clean_df_part"

/-- The per-vertical filename written by `webset_to_dataframe` when saving. -/
def savedFileName (verticalTitle : String) : String := verticalTitle ++ ".csv"

/-- Python `str.startswith` on code points. -/
def strStartsWith (s pat : String) : Bool := List.isPrefixOf pat.data s.data

/-- Embedding of `combine_saved_df` over a directory listing and a reader
oracle for the stored tables: filter the listing by the fixed name pattern,
read each matching file in listing order, then run the shared pipeline. -/
def combineSavedDf (listing : List String) (read : String → List Row) :
    Except EtlError (List Row) :=
  let files := listing.filter (fun f => strStartsWith f cleanDfNamePattern)
  mergeDedupSort (files.map read)

/-! ## Filesystem effects of `webset_to_dataframe` -/

/-- The filesystem collaborator state: whether the data folder exists and
the files written so far. -/
structure FsState where
  dataFolderExists : Bool
  files : List (String × List Row)
deriving DecidableEq

/-- Embedding of `webset_to_dataframe` with its filesystem side effects:
the data folder is created first when absent, then the webset is fetched
(the fetch outcome is a parameter), then the items are flattened, and the
table is written to the per-vertical file only when `save` is set.  Errors
propagate but leave the already-performed state change in place. -/
def websetToDataframeFs (lib : String → LibOutcome) (save : Bool)
    (fetch : Except EtlError Webset) (s : FsState) :
    FsState × Except EtlError (List Row) :=
  let s := if s.dataFolderExists then s else { s with dataFolderExists := true }
  match fetch with
  | .error e => (s, .error e)
  | .ok w =>
    match websetToDataframe lib w with
    | .error e => (s, .error e)
    | .ok rows =>
      if save then
        ({ s with files := s.files ++ [(savedFileName w.title, rows)] }, .ok rows)
      else (s, .ok rows)

/-! ## Decidable equality of pipeline results -/

instance {e a : Type} [DecidableEq e] [DecidableEq a] : DecidableEq (Except e a) :=
  fun x y =>
    match x, y with
    | .ok u, .ok v =>
      if h : u = v then isTrue (by rw [h]) else isFalse (by simp [h])
    | .error u, .error v =>
      if h : u = v then isTrue (by rw [h]) else isFalse (by simp [h])
    | .ok _, .error _ => isFalse (by simp)
    | .error _, .ok _ => isFalse (by simp)

/-! ## Concrete data used by the counterexamples and witnesses -/

/-- A row with the given company name and the vertical "V"; the remaining
fields are blank. -/
def mkRow (name : String) : Row :=
  { companyName := name, vertical := "V", moneyRaised := none, ceoEmail := none,
    location := none, employees := none, industry := none, url := "", description := "",
    emailReasoning := none, financialsReasoning := none }

/-- Seventeen rows with pairwise distinct company names and one shared
Vertical: the smallest shape on which the quicksort partition phase of the
sort runs (it needs more than 16 entries). -/
def stabRows : List Row :=
  ["a", "b", "c", "d", "e", "f", "g", "h", "i",
   "j", "k", "l", "m", "n", "o", "p", "q"].map mkRow

/-- The order in which the pipeline returns `stabRows`: the partition round
of the quicksort reverses the block between the median swaps even though
every key is equal. -/
def stabOut : List Row :=
  ["a", "o", "n", "m", "l", "k", "j", "p", "i",
   "g", "f", "e", "d", "c", "b", "h", "q"].map mkRow

/-- A company-shaped item with a syntactically valid CEO email enrichment
and a financial enrichment. -/
def acmeItem : Item :=
  { properties := .companyShaped
      { company := { name := "Acme", location := none, employees := none, industry := none },
        url := "https://acme.example", description := "d" },
    enrichments :=
      [ { result := some ["ceo@acme.com"], reasoning := some "found on site" },
        { result := some ["5M"], reasoning := none } ] }

/-- The flat record `flatten` produces from `acmeItem` for the vertical
"Fintech" when the validation oracle accepts the email. -/
def acmeRow : Row :=
  { companyName := "Acme", vertical := "Fintech", moneyRaised := some "5M",
    ceoEmail := some "ceo@acme.com", location := none, employees := none,
    industry := none, url := "https://acme.example", description := "d",
    emailReasoning := some "found on site", financialsReasoning := none }

/-- A webset holding exactly `acmeItem`. -/
def fintechWebset : Webset := { title := "Fintech", items := some [acmeItem] }

/-- A company-shaped item whose email enrichment produced the empty string. -/
def emptyEmailItem : Item :=
  { properties := .companyShaped
      { company := { name := "Hollow", location := none, employees := none, industry := none },
        url := "u", description := "d" },
    enrichments :=
      [ { result := some [""], reasoning := some "none found" },
        { result := some ["1M"], reasoning := none } ] }

/-! ## Order facts about the codepoint comparison -/

theorem charToNat_inj {a b : Char} (h : a.toNat = b.toNat) : a = b := by
  have h2 := congrArg Char.ofNat h
  simpa [Char.ofNat_toNat] using h2

theorem charListLt_irrefl : ∀ l : List Char, charListLt l l = false
  | [] => rfl
  | a :: as => by
    simp only [charListLt, Nat.lt_irrefl, if_false]
    exact charListLt_irrefl as

theorem charListLt_asymm : ∀ l₁ l₂ : List Char,
    charListLt l₁ l₂ = true → charListLt l₂ l₁ = false
  | [], [] => by intro h; simp [charListLt] at h
  | _ :: _, [] => by intro h; simp [charListLt] at h
  | [], _ :: _ => fun _ => rfl
  | a :: as, b :: bs => by
    intro h
    by_cases hab : a.toNat < b.toNat
    · have hba : ¬ b.toNat < a.toNat := by omega
      simp [charListLt, hab, hba]
    · by_cases hba : b.toNat < a.toNat
      · simp [charListLt, hab, hba] at h
      · simp only [charListLt, hab, hba, if_false] at h ⊢
        exact charListLt_asymm as bs h

theorem charListLt_trans : ∀ l₁ l₂ l₃ : List Char,
    charListLt l₁ l₂ = true → charListLt l₂ l₃ = true → charListLt l₁ l₃ = true
  | _, l₂, [] => by intro _ h2; cases l₂ <;> simp [charListLt] at h2
  | l₁, [], _ :: _ => by intro h1 _; cases l₁ <;> simp [charListLt] at h1
  | [], _ :: _, _ :: _ => fun _ _ => rfl
  | a :: as, b :: bs, c :: cs => by
    intro h1 h2
    by_cases hab : a.toNat < b.toNat <;> by_cases hbc : b.toNat < c.toNat
    · have hac : a.toNat < c.toNat := by omega
      simp [charListLt, hac]
    · by_cases hcb : c.toNat < b.toNat
      · simp [charListLt, hbc, hcb] at h2
      · have hac : a.toNat < c.toNat := by omega
        simp [charListLt, hac]
    · by_cases hba : b.toNat < a.toNat
      · simp [charListLt, hab, hba] at h1
      · have hac : a.toNat < c.toNat := by omega
        simp [charListLt, hac]
    · by_cases hba : b.toNat < a.toNat
      · simp [charListLt, hab, hba] at h1
      · by_cases hcb : c.toNat < b.toNat
        · simp [charListLt, hbc, hcb] at h2
        · have hac1 : ¬ a.toNat < c.toNat := by omega
          have hac2 : ¬ c.toNat < a.toNat := by omega
          simp only [charListLt, hab, hba, if_false] at h1
          simp only [charListLt, hbc, hcb, if_false] at h2
          simp only [charListLt, hac1, hac2, if_false]
          exact charListLt_trans as bs cs h1 h2

theorem charListLt_total : ∀ l₁ l₂ : List Char,
    charListLt l₁ l₂ = false → charListLt l₂ l₁ = true ∨ l₁ = l₂
  | [], [] => fun _ => Or.inr rfl
  | [], _ :: _ => by intro h; simp [charListLt] at h
  | _ :: _, [] => fun _ => Or.inl rfl
  | a :: as, b :: bs => by
    intro h
    by_cases hab : a.toNat < b.toNat
    · simp [charListLt, hab] at h
    · by_cases hba : b.toNat < a.toNat
      · left; simp [charListLt, hba]
      · simp only [charListLt, hab, hba, if_false] at h
        have heq : a = b := charToNat_inj (by omega)
        rcases charListLt_total as bs h with h2 | h2
        · left; simp [charListLt, hab, hba, h2]
        · right; rw [heq, h2]

theorem strData_inj {a b : String} (h : a.data = b.data) : a = b := by
  cases a; cases b; exact congrArg String.mk h

theorem strLt_irrefl (s : String) : strLt s s = false := charListLt_irrefl s.data

theorem strLt_asymm {a b : String} (h : strLt a b = true) : strLt b a = false :=
  charListLt_asymm a.data b.data h

theorem strLt_trans {a b c : String} (h1 : strLt a b = true) (h2 : strLt b c = true) :
    strLt a c = true :=
  charListLt_trans a.data b.data c.data h1 h2

theorem strLt_total {a b : String} (h : strLt a b = false) :
    strLt b a = true ∨ a = b := by
  rcases charListLt_total a.data b.data h with h2 | h2
  · exact Or.inl h2
  · exact Or.inr (strData_inj h2)

/-! ## Permutation and ordering facts about the insertion-sort phase -/

theorem insertIdx_perm (ks : List String) (i : Nat) :
    ∀ l : List Nat, (insertIdx ks i l).Perm (i :: l)
  | [] => List.Perm.refl _
  | j :: rest => by
    by_cases h : strLt (keyD ks i) (keyD ks j) = true
    · simp [insertIdx, h]
    · simp only [insertIdx, h, if_false]
      exact ((insertIdx_perm ks i rest).cons j).trans (List.Perm.swap i j rest)

theorem insertIdx_mem {ks : List String} {i x : Nat} {l : List Nat}
    (h : x ∈ insertIdx ks i l) : x = i ∨ x ∈ l := by
  have := (insertIdx_perm ks i l).mem_iff.mp h
  simpa using this

theorem foldl_insertIdx_perm (ks : List String) :
    ∀ (xs : List Nat) (acc : List Nat),
      (xs.foldl (fun acc i => insertIdx ks i acc) acc).Perm (xs ++ acc)
  | [], acc => by simp
  | x :: xs, acc => by
    have h1 := foldl_insertIdx_perm ks xs (insertIdx ks x acc)
    have h2 : (xs ++ insertIdx ks x acc).Perm (xs ++ x :: acc) :=
      List.Perm.append_left xs (insertIdx_perm ks x acc)
    have h3 : (xs ++ x :: acc).Perm (x :: (xs ++ acc)) := List.perm_middle
    simpa using (h1.trans h2).trans h3

theorem insertionSortIdx_perm (ks : List String) (l : List Nat) :
    (insertionSortIdx ks l).Perm l := by
  have := foldl_insertIdx_perm ks l []
  simpa [insertionSortIdx] using this

theorem stableRel_of_lt_of_rel {ks : List String} {i j x : Nat}
    (hij : strLt (keyD ks i) (keyD ks j) = true) (hjx : stableRel ks j x) :
    stableRel ks i x := by
  rcases hjx with h | ⟨h, _⟩
  · exact Or.inl (strLt_trans hij h)
  · exact Or.inl (h ▸ hij)

theorem insertIdx_pairwise {ks : List String} {i : Nat} {l : List Nat}
    (hp : l.Pairwise (stableRel ks)) (hlt : ∀ j ∈ l, j < i) :
    (insertIdx ks i l).Pairwise (stableRel ks) := by
  induction l with
  | nil => exact List.pairwise_singleton _ _
  | cons j rest ih =>
    rcases List.pairwise_cons.mp hp with ⟨hjrest, hrest⟩
    by_cases h : strLt (keyD ks i) (keyD ks j) = true
    · simp only [insertIdx, h, if_true]
      refine List.pairwise_cons.mpr ⟨?_, hp⟩
      intro x hx
      rcases hx with _ | hx
      · exact Or.inl h
      · exact stableRel_of_lt_of_rel h (hjrest x (by assumption))
    · simp only [insertIdx, h, if_false]
      refine List.pairwise_cons.mpr ⟨?_, ?_⟩
      · intro x hx
        rcases insertIdx_mem hx with heq | hx
        · rw [heq]
          have hf : strLt (keyD ks i) (keyD ks j) = false := by simpa using h
          rcases strLt_total hf with h2 | h2
          · exact Or.inl h2
          · exact Or.inr ⟨h2.symm, hlt j (List.mem_cons_self j rest)⟩
        · exact hjrest x hx
      · exact ih hrest (fun x hx => hlt x (List.mem_cons_of_mem j hx))

/-! ## The small-range reduction of the introsort -/

theorem foldl_insertIdx_pairwise {ks : List String} :
    ∀ {xs acc : List Nat}, xs.Pairwise (· < ·) → acc.Pairwise (stableRel ks) →
      (∀ j ∈ acc, ∀ x ∈ xs, j < x) →
      (xs.foldl (fun acc i => insertIdx ks i acc) acc).Pairwise (stableRel ks)
  | [], _, _, hacc, _ => hacc
  | x :: xs, acc, hxs, hacc, hsep => by
    rcases List.pairwise_cons.mp hxs with ⟨hxxs, hxs2⟩
    have hacc2 : (insertIdx ks x acc).Pairwise (stableRel ks) :=
      insertIdx_pairwise hacc (fun j hj => hsep j hj x (List.mem_cons_self x xs))
    have hsep2 : ∀ j ∈ insertIdx ks x acc, ∀ y ∈ xs, j < y := by
      intro j hj y hy
      rcases insertIdx_mem hj with heq | hj
      · exact heq ▸ hxxs y hy
      · exact hsep j hj y (List.mem_cons_of_mem x hy)
    rw [List.foldl_cons]
    exact foldl_insertIdx_pairwise hxs2 hacc2 hsep2

theorem insertionSortIdx_range_pairwise (ks : List String) (n : Nat) :
    (insertionSortIdx ks (List.range n)).Pairwise (stableRel ks) :=
  foldl_insertIdx_pairwise (List.pairwise_lt_range n) (List.Pairwise.nil)
    (fun j hj => absurd hj (List.not_mem_nil j))

theorem qsortLoop_small (ks : List String) (t : List Nat) (pl pr : Nat) (fuel : Nat)
    (depth : Int) (h : pr - pl ≤ 15) :
    qsortLoop ks (fuel + 1) t pl pr [] depth = insertionSegment ks t pl pr := by
  have h2 : ¬ pr - pl > 15 := by omega
  simp [qsortLoop, h2]

theorem npArgsort_small (ks : List String) (h : ks.length ≤ 16) :
    npArgsort ks = insertionSortIdx ks (List.range ks.length) := by
  show qsortLoop ks (2 * ks.length + 7 + 1) (List.range ks.length) 0 (ks.length - 1) []
      (2 * (msbNat ks.length : Int)) = _
  rw [qsortLoop_small ks _ 0 (ks.length - 1) _ _ (by omega)]
  unfold insertionSegment
  rcases Nat.eq_zero_or_pos ks.length with h0 | h0
  · simp [h0]
  · have hlen : ks.length - 1 + 1 = ks.length := by omega
    rw [hlen]
    simp [List.take_of_length_le, List.drop_of_length_le]

/-! ## Facts about the dedup step -/

theorem dedupAux_filter (n : String) :
    ∀ (l : List Row) (seen : List String),
      (dedupAux seen l).filter (fun r => r.companyName == n) =
        if n ∈ seen then [] else (l.find? (fun r => r.companyName == n)).toList
  | [], seen => by simp [dedupAux]
  | r :: rest, seen => by
    by_cases hn : r.companyName = n
    · have hb : (r.companyName == n) = true := by simpa using hn
      by_cases hmem : r.companyName ∈ seen
      · have hns : n ∈ seen := by rwa [hn] at hmem
        rw [dedupAux, if_pos hmem, dedupAux_filter n rest seen, if_pos hns, if_pos hns]
      · have hns : n ∉ seen := by rwa [hn] at hmem
        rw [dedupAux, if_neg hmem, List.filter_cons, dedupAux_filter n rest _,
          List.find?_cons, if_neg hns]
        have hns2 : n ∈ r.companyName :: seen := by simp [hn]
        rw [if_pos hns2]
        simp [hb]
    · have hb : (r.companyName == n) = false := by simpa using hn
      have hiff : n ∈ r.companyName :: seen ↔ n ∈ seen := by
        constructor
        · intro h
          rcases List.mem_cons.mp h with h2 | h2
          · exact absurd h2.symm hn
          · exact h2
        · exact List.mem_cons_of_mem _
      by_cases hmem : r.companyName ∈ seen
      · rw [dedupAux, if_pos hmem, dedupAux_filter n rest seen, List.find?_cons]
        simp [hb]
      · by_cases hns : n ∈ seen
        · rw [dedupAux, if_neg hmem, List.filter_cons, dedupAux_filter n rest _,
            List.find?_cons, if_pos (hiff.mpr hns), if_pos hns]
          simp [hb]
        · rw [dedupAux, if_neg hmem, List.filter_cons, dedupAux_filter n rest _,
            List.find?_cons, if_neg (fun h => hns (hiff.mp h)), if_neg hns]
          simp [hb]

theorem dedupAux_sublist : ∀ (l : List Row) (seen : List String),
    (dedupAux seen l).Sublist l
  | [], _ => List.Sublist.refl []
  | r :: rest, seen => by
    rw [dedupAux]
    by_cases hmem : r.companyName ∈ seen
    · rw [if_pos hmem]
      exact (dedupAux_sublist rest seen).cons r
    · rw [if_neg hmem]
      exact (dedupAux_sublist rest _).cons₂ r

theorem dedupAux_not_seen {m : String} :
    ∀ {l : List Row} {seen : List String}, m ∈ seen →
      ∀ s ∈ dedupAux seen l, s.companyName ≠ m
  | [], _, _, s, hs => absurd hs (List.not_mem_nil s)
  | r :: rest, seen, hm, s, hs => by
    rw [dedupAux] at hs
    by_cases hmem : r.companyName ∈ seen
    · rw [if_pos hmem] at hs
      exact dedupAux_not_seen hm s hs
    · rw [if_neg hmem] at hs
      rcases List.mem_cons.mp hs with heq | hs2
      · intro hc
        rw [heq] at hc
        exact hmem (hc ▸ hm)
      · exact dedupAux_not_seen (List.mem_cons_of_mem _ hm) s hs2

theorem dedupAux_names_pairwise : ∀ (l : List Row) (seen : List String),
    (dedupAux seen l).Pairwise (fun r s => r.companyName ≠ s.companyName)
  | [], _ => List.Pairwise.nil
  | r :: rest, seen => by
    rw [dedupAux]
    by_cases hmem : r.companyName ∈ seen
    · rw [if_pos hmem]
      exact dedupAux_names_pairwise rest seen
    · rw [if_neg hmem]
      refine List.pairwise_cons.mpr ⟨?_, dedupAux_names_pairwise rest _⟩
      intro s hs
      exact fun hc => dedupAux_not_seen (List.mem_cons_self _ _) s hs hc.symm

theorem dedupAux_eq_self : ∀ {l : List Row} {seen : List String},
    l.Pairwise (fun r s => r.companyName ≠ s.companyName) →
    (∀ r ∈ l, r.companyName ∉ seen) → dedupAux seen l = l
  | [], _, _, _ => rfl
  | r :: rest, seen, hp, hout => by
    rcases List.pairwise_cons.mp hp with ⟨hr, hrest⟩
    rw [dedupAux, if_neg (hout r (List.mem_cons_self r rest))]
    congr 1
    refine dedupAux_eq_self hrest ?_
    intro s hs
    rw [List.mem_cons]
    rintro (hc | hc)
    · exact hr s hs hc.symm
    · exact hout s (List.mem_cons_of_mem r hs) hc

theorem dedupByName_eq_self {l : List Row}
    (hp : l.Pairwise (fun r s => r.companyName ≠ s.companyName)) :
    dedupByName l = l :=
  dedupAux_eq_self hp (fun _ _ => List.not_mem_nil _)

/-! ## Transport from index permutations to row tables -/

theorem map_getD_range (l : List Row) :
    (List.range l.length).map (fun i => l.getD i default) = l := by
  apply List.ext_getElem
  · simp
  · intro i h1 h2
    simp only [List.getElem_map, List.getElem_range]
    exact List.getD_eq_getElem l default h2

theorem keyD_verticalKeys (rows : List Row) (i : Nat) :
    keyD (verticalKeys rows) i = (rows.getD i default).vertical := by
  by_cases h : i < rows.length
  · rw [keyD, verticalKeys, List.getD_eq_getElem _ _ (by simpa using h),
      List.getD_eq_getElem _ _ h, List.getElem_map]
  · rw [keyD, verticalKeys, List.getD_eq_default _ _ (by simpa using Nat.le_of_not_lt h),
      List.getD_eq_default _ _ (Nat.le_of_not_lt h)]
    rfl

theorem applyIdx_perm {rows : List Row} {p : List Nat}
    (h : p.Perm (List.range rows.length)) : (applyIdx rows p).Perm rows := by
  have h2 := h.map (fun i => rows.getD i default)
  rw [map_getD_range] at h2
  exact h2

theorem stableRel_nonincreasing {ks : List String} {i j : Nat}
    (h : stableRel ks i j) : strLt (keyD ks j) (keyD ks i) = false := by
  rcases h with h | ⟨h, _⟩
  · exact strLt_asymm h
  · rw [h]
    exact strLt_irrefl _

theorem applyIdx_pairwise_vertical {rows : List Row} {p : List Nat}
    (h : p.Pairwise (stableRel (verticalKeys rows))) :
    (applyIdx rows p).Pairwise (fun r s => strLt s.vertical r.vertical = false) := by
  refine List.Pairwise.map _ ?_ h
  intro a b hab
  have h2 := stableRel_nonincreasing hab
  rwa [keyD_verticalKeys, keyD_verticalKeys] at h2

theorem insertIdx_append {ks : List String} {i : Nat} :
    ∀ {l : List Nat}, (∀ j ∈ l, strLt (keyD ks i) (keyD ks j) = false) →
      insertIdx ks i l = l ++ [i]
  | [], _ => rfl
  | j :: rest, h => by
    rw [insertIdx, if_neg ?_, insertIdx_append ?_]
    · rfl
    · intro x hx
      exact h x (List.mem_cons_of_mem j hx)
    · rw [h j (List.mem_cons_self j rest)]
      simp

theorem insertionSortIdx_of_sorted {ks : List String}
    (hks : ks.Pairwise (fun a b => strLt b a = false)) :
    ∀ m, m ≤ ks.length → insertionSortIdx ks (List.range m) = List.range m := by
  intro m
  induction m with
  | zero => intro _; rfl
  | succ k ih =>
    intro hk
    rw [List.range_succ, insertionSortIdx, List.foldl_append]
    have hstep := ih (by omega)
    rw [insertionSortIdx] at hstep
    rw [hstep]
    simp only [List.foldl_cons, List.foldl_nil]
    rw [insertIdx_append ?_]
    intro j hj
    have hj2 : j < k := by simpa using hj
    have hp := List.pairwise_iff_getElem.mp hks j k (by omega) (by omega) hj2
    rw [keyD, keyD, List.getD_eq_getElem _ _ (by omega), List.getD_eq_getElem _ _ (by omega)]
    exact hp

/-! ## Theorems for the claims -/

/-- Helper: when the validation wrapper returns a value it is the input itself. -/
theorem validateEmail_some {lib : String → LibOutcome} {s v : String}
    (h : validateEmail lib s = some v) : v = s := by
  rcases hc : lib s with _ | _ | _ <;> rw [validateEmail, hc] at h <;> simp_all

/-- Helper: the only error `flatten` produces is the schema violation. -/
theorem flatten_error_schema {lib : String → LibOutcome} {t : String} {it : Item}
    {e : EtlError} (h : flatten lib t it = .error e) : e = .schemaViolation := by
  rcases it with ⟨props, ens⟩
  cases props
  case otherShaped => simpa [flatten] using h.symm
  case companyShaped p =>
    by_cases hl : ens.length = 2 <;> simp [flatten, hl] at h
    exact h.symm

/-- Helper: the item loop never raises the missing-items error; that error
happens before the loop. -/
theorem flattenAll_no_missingItems (lib : String → LibOutcome) (t : String) :
    ∀ its : List Item, flattenAll lib t its ≠ .error .missingItems
  | [] => by simp [flattenAll]
  | it :: rest => by
    rw [flattenAll]
    rcases hf : flatten lib t it with e | r
    · have he := flatten_error_schema hf
      simp [he]
    · rcases hr : flattenAll lib t rest with e | rs
      · have h2 := flattenAll_no_missingItems lib t rest
        rw [hr] at h2
        simp only [hr]
        simpa using h2
      · simp [hr]

/-- C1: for every item, `flatten` fails with SchemaViolation exactly when the
item properties are not company-shaped or the enrichment list does not have
exactly two entries; for a company-shaped item with exactly two enrichments it
succeeds and produces a flat record, never silently skipping a bad item. -/
theorem flatten_schemaViolation_iff (lib : String → LibOutcome) (t : String) (it : Item) :
    ((flatten lib t it = .error .schemaViolation) ↔
      (it.properties.isCompanyShaped = false ∨ it.enrichments.length ≠ 2)) ∧
    ((∃ r, flatten lib t it = .ok r) ↔
      (it.properties.isCompanyShaped = true ∧ it.enrichments.length = 2)) := by
  rcases it with ⟨props, ens⟩
  cases props
  case otherShaped => simp [flatten, ItemProps.isCompanyShaped]
  case companyShaped p =>
    by_cases h : ens.length = 2 <;> simp [flatten, ItemProps.isCompanyShaped, h]

/-- C4: whenever the external validation library decides exactly the email
grammar (returning normally on a match and raising otherwise), the wrapper
returns the input string itself exactly on grammar matches, returns absence
otherwise, and maps every library failure, expected or not, to absence
instead of propagating it; the wrapper is a total function, so it never
raises. -/
theorem validateEmail_grammar_iff (lib : String → LibOutcome) (grammar : String → Bool)
    (hlib : ∀ s, lib s = .ok ↔ grammar s = true) (s : String) :
    (validateEmail lib s = some s ↔ grammar s = true) ∧
    (grammar s = false → validateEmail lib s = none) ∧
    (validateEmail lib s = some s ∨ validateEmail lib s = none) := by
  rcases hcase : lib s with _ | _ | _
  · have hg : grammar s = true := (hlib s).mp hcase
    simp [validateEmail, hcase, hg]
  · have hg : grammar s = false := by
      cases hgf : grammar s
      · rfl
      · have h2 := (hlib s).mpr hgf
        rw [hcase] at h2
        exact absurd h2 (by simp)
    simp [validateEmail, hcase, hg]
  · have hg : grammar s = false := by
      cases hgf : grammar s
      · rfl
      · have h2 := (hlib s).mpr hgf
        rw [hcase] at h2
        exact absurd h2 (by simp)
    simp [validateEmail, hcase, hg]

/-- Witness for C4 at a concrete oracle and input. -/
theorem validateEmail_grammar_iff_witness :
    (validateEmail (fun t => if t = "ceo@acme.com" then LibOutcome.ok else LibOutcome.notValid)
        "ceo@acme.com" = some "ceo@acme.com" ↔
      ("ceo@acme.com" == "ceo@acme.com") = true) ∧
    (("ceo@acme.com" == "ceo@acme.com") = false →
      validateEmail (fun t => if t = "ceo@acme.com" then LibOutcome.ok else LibOutcome.notValid)
        "ceo@acme.com" = none) ∧
    (validateEmail (fun t => if t = "ceo@acme.com" then LibOutcome.ok else LibOutcome.notValid)
        "ceo@acme.com" = some "ceo@acme.com" ∨
      validateEmail (fun t => if t = "ceo@acme.com" then LibOutcome.ok else LibOutcome.notValid)
        "ceo@acme.com" = none) :=
  validateEmail_grammar_iff _ (fun t => t == "ceo@acme.com")
    (fun s => by by_cases h : s = "ceo@acme.com" <;> simp [h]) "ceo@acme.com"

/-- C8: materialization fails with MissingItems exactly when the items field
of the fetched webset is absent; a present-but-empty items sequence yields an
empty table. -/
theorem websetToDataframe_missingItems_iff (lib : String → LibOutcome) (w : Webset) :
    ((websetToDataframe lib w = .error .missingItems) ↔ w.items = none) ∧
    (∀ title, websetToDataframe lib { title := title, items := some [] } = .ok []) := by
  constructor
  · rcases w with ⟨title, items⟩
    rcases items with _ | its
    · simp [websetToDataframe]
    · simp only [websetToDataframe]
      constructor
      · intro h
        exact absurd h (flattenAll_no_missingItems lib title its)
      · intro h
        exact absurd h (by simp)
  · intro title
    rfl

/-- C10: `webset_to_dataframe` creates the data folder on every call, before
the fetch, for both values of the save flag, and even when the fetch or the
flatten step fails. -/
theorem websetToDataframeFs_creates_folder (lib : String → LibOutcome) (save : Bool)
    (fetch : Except EtlError Webset) (s : FsState) :
    (websetToDataframeFs lib save fetch s).1.dataFolderExists = true := by
  rcases fetch with e | w
  · by_cases h : s.dataFolderExists <;> simp [websetToDataframeFs, h]
  · by_cases h : s.dataFolderExists <;>
      rcases hw : websetToDataframe lib w with e | rows <;>
        cases save <;> simp [websetToDataframeFs, h, hw]

/-- C2: the dedup step of the shared pipeline keeps, for every company name,
exactly the first row of the concatenated input with that name (all of its
fields), drops every later row with the same name, and keeps the surviving
rows in their concatenated order. -/
theorem dedup_keeps_first_occurrence (tables : List (List Row)) (n : String) :
    (dedupByName tables.flatten).filter (fun r => r.companyName == n) =
      (tables.flatten.find? (fun r => r.companyName == n)).toList ∧
    (dedupByName tables.flatten).Sublist tables.flatten := by
  constructor
  · have h := dedupAux_filter n tables.flatten []
    simpa [dedupByName] using h
  · exact dedupAux_sublist tables.flatten []

/-- C9: with zero websets listed, and likewise with no file of the data
folder matching the fixed name pattern, the pipeline raises the pandas
concat error on an empty list instead of returning an empty table. -/
theorem empty_input_raises (lib : String → LibOutcome) :
    websetsToDataframe lib [] = .error .noObjectsToConcatenate ∧
    (∀ (listing : List String) (read : String → List Row),
      listing.filter (fun f => strStartsWith f cleanDfNamePattern) = [] →
      combineSavedDf listing read = .error .noObjectsToConcatenate) := by
  constructor
  · rfl
  · intro listing read h
    simp [combineSavedDf, h, mergeDedupSort]

/-- Witness for C9 at a concrete directory listing with no matching file. -/
theorem empty_input_raises_witness :
    combineSavedDf ["notes.txt"] (fun _ => []) = .error .noObjectsToConcatenate :=
  (empty_input_raises (fun _ => LibOutcome.ok)).2 ["notes.txt"] (fun _ => []) (by decide)

/-- Counterexample for C6: the file that `webset_to_dataframe` persists for
the vertical Fintech is named Fintech.csv, which the fixed filter of
`combine_saved_df` does not match, so the disk merge errors out instead of
reconstructing the aggregator output. -/
theorem combineSavedDf_misses_saved_file_cex :
    strStartsWith (savedFileName "Fintech") cleanDfNamePattern = false ∧
    websetsToDataframe (fun _ => LibOutcome.ok) [fintechWebset] = .ok [acmeRow] ∧
    combineSavedDf [savedFileName "Fintech"] (fun _ => [acmeRow]) =
      .error .noObjectsToConcatenate ∧
    combineSavedDf [savedFileName "Fintech"] (fun _ => [acmeRow]) ≠
      websetsToDataframe (fun _ => LibOutcome.ok) [fintechWebset] := by decide

/-- C6 (amended): `combine_saved_df` merges only files whose names start with
the fixed pattern; a per-vertical file persisted by `webset_to_dataframe`,
named after the vertical, is skipped whenever its name does not start with
the pattern, and the reconstruction of the aggregator output fails. -/
theorem combineSavedDf_skips_unmatched_file (v : String) (read : String → List Row)
    (h : strStartsWith (savedFileName v) cleanDfNamePattern = false) :
    combineSavedDf [savedFileName v] read = .error .noObjectsToConcatenate := by
  simp [combineSavedDf, List.filter_cons, h, mergeDedupSort]

/-- Witness for the amended C6 at a concrete vertical title. -/
theorem combineSavedDf_skips_unmatched_file_witness :
    combineSavedDf [savedFileName "Health"] (fun _ => [acmeRow]) =
      .error .noObjectsToConcatenate :=
  combineSavedDf_skips_unmatched_file "Health" (fun _ => [acmeRow]) (by decide)

/-- Counterexample for C7: an enrichment whose first result value is the empty
string is stored under CEO Email unchanged, although it fails validation,
because the falsy-value check of the source skips validation for it. -/
theorem flatten_unvalidated_empty_email_cex :
    (flatten (fun _ => LibOutcome.notValid) "V" emptyEmailItem).map (fun r => r.ceoEmail) =
      Except.ok (some "") ∧
    validateEmail (fun _ => LibOutcome.notValid) "" = none := by decide

/-- C7 (amended): for every successfully flattened item the CEO Email field
is absence, or it is the first result value of the email enrichment,
unchanged, and that value either passed email validation or is the empty
string, which the code stores without validating. -/
theorem flatten_ceoEmail_validated_or_falsy (lib : String → LibOutcome) (t : String)
    (it : Item) (r : Row) (h : flatten lib t it = .ok r) :
    r.ceoEmail = none ∨
    (∃ e, firstResult (it.enrichments.getD 0 emptyEnrichment) = some e ∧
      r.ceoEmail = some e ∧ (e = "" ∨ validateEmail lib e = some e)) := by
  rcases it with ⟨props, ens⟩
  cases props
  case otherShaped => simp [flatten] at h
  case companyShaped p =>
    by_cases hl : ens.length = 2
    · simp only [flatten, hl, if_true] at h
      rcases hfr : firstResult (ens.getD 0 emptyEnrichment) with _ | e
      · left
        rw [hfr] at h
        simp only [Except.ok.injEq] at h
        rw [← h]
      · rw [hfr] at h
        by_cases he : e = ""
        · right
          refine ⟨e, by simp [hfr], ?_, Or.inl he⟩
          simp only [he, if_true, Except.ok.injEq] at h
          rw [← h, he]
        · rcases hv : validateEmail lib e with _ | v
          · left
            simp only [he, if_false, hv, Except.ok.injEq] at h
            rw [← h]
          · right
            have hve := validateEmail_some hv
            refine ⟨e, by simp [hfr], ?_, Or.inr (hve ▸ hv)⟩
            simp only [he, if_false, hv, Except.ok.injEq] at h
            rw [← h, hve]
    · simp [flatten, hl] at h

/-- Witness for the amended C7 at a concrete item with a validated email. -/
theorem flatten_ceoEmail_validated_or_falsy_witness :
    acmeRow.ceoEmail = none ∨
    (∃ e, firstResult (acmeItem.enrichments.getD 0 emptyEnrichment) = some e ∧
      acmeRow.ceoEmail = some e ∧
      (e = "" ∨ validateEmail (fun _ => LibOutcome.ok) e = some e)) :=
  flatten_ceoEmail_validated_or_falsy (fun _ => LibOutcome.ok) "Fintech" acmeItem acmeRow
    (by decide)

set_option maxRecDepth 8000

/-- Counterexample for C3: on seventeen rows sharing one Vertical, dedup
keeps all of them, yet the pipeline returns them in a different order: the
default numpy quicksort reorders rows with equal keys once the input exceeds
the sixteen-element insertion-sort cutoff, so the sort is not stable. -/
theorem mergeDedupSort_unstable_cex :
    (∀ r ∈ stabRows, r.vertical = "V") ∧
    dedupByName (List.flatten [stabRows]) = stabRows ∧
    mergeDedupSort [stabRows] = .ok stabOut ∧
    stabOut ≠ stabRows := by decide

/-- C3 (amended): whenever the post-dedup table has at most sixteen rows,
the final sort orders them by Vertical ascending under codepoint string
comparison and is stable: the applied index permutation is a permutation of
all row positions that is pairwise increasing by key, with ties ordered by
original position.  Beyond sixteen rows the quicksort phase runs and ties
may be reordered (see the counterexample). -/
theorem mergeDedupSort_sorted_stable_of_small (tables : List (List Row))
    (hne : tables ≠ [])
    (hlen : (dedupByName tables.flatten).length ≤ 16) :
    mergeDedupSort tables =
      .ok (applyIdx (dedupByName tables.flatten)
        (npArgsort (verticalKeys (dedupByName tables.flatten)))) ∧
    (npArgsort (verticalKeys (dedupByName tables.flatten))).Perm
      (List.range (dedupByName tables.flatten).length) ∧
    (npArgsort (verticalKeys (dedupByName tables.flatten))).Pairwise
      (stableRel (verticalKeys (dedupByName tables.flatten))) := by
  have hkl : (verticalKeys (dedupByName tables.flatten)).length =
      (dedupByName tables.flatten).length := by simp [verticalKeys]
  have hsmall : (verticalKeys (dedupByName tables.flatten)).length ≤ 16 := by omega
  have hbr := npArgsort_small _ hsmall
  refine ⟨?_, ?_, ?_⟩
  · rcases tables with _ | ⟨t, ts⟩
    · exact absurd rfl hne
    · rfl
  · rw [hbr, ← hkl]
    exact insertionSortIdx_perm _ _
  · rw [hbr]
    exact insertionSortIdx_range_pairwise _ _

/-- Witness for the amended C3 at a concrete two-table input. -/
theorem mergeDedupSort_sorted_stable_of_small_witness :
    mergeDedupSort [[acmeRow], [mkRow "z"]] =
      .ok (applyIdx (dedupByName (List.flatten [[acmeRow], [mkRow "z"]]))
        (npArgsort (verticalKeys (dedupByName (List.flatten [[acmeRow], [mkRow "z"]]))))) ∧
    (npArgsort (verticalKeys (dedupByName (List.flatten [[acmeRow], [mkRow "z"]])))).Perm
      (List.range (dedupByName (List.flatten [[acmeRow], [mkRow "z"]])).length) ∧
    (npArgsort (verticalKeys (dedupByName (List.flatten [[acmeRow], [mkRow "z"]])))).Pairwise
      (stableRel (verticalKeys (dedupByName (List.flatten [[acmeRow], [mkRow "z"]])))) :=
  mergeDedupSort_sorted_stable_of_small [[acmeRow], [mkRow "z"]] (by decide) (by decide)

/-- Counterexample for C5: on the seventeen equal-Vertical rows the pipeline
applied once scrambles the order, and applied to its own output it returns
the original order, which differs, so the pipeline is not idempotent. -/
theorem mergeDedupSort_not_idempotent_cex :
    mergeDedupSort [stabRows] = .ok stabOut ∧
    mergeDedupSort [stabOut] = .ok stabRows ∧
    stabOut ≠ stabRows := by decide

/-- C5 (amended): the pipeline is idempotent on every input whose post-dedup
table has at most sixteen rows: reapplying concatenate, dedup and sort to
the output returns the output unchanged.  For larger tables the unstable
quicksort can permute equal-Vertical rows differently on reapplication (see
the counterexample). -/
theorem mergeDedupSort_idempotent_of_small (tables : List (List Row))
    (hne : tables ≠ []) (hlen : (dedupByName tables.flatten).length ≤ 16)
    (out : List Row) (hout : mergeDedupSort tables = .ok out) :
    mergeDedupSort [out] = .ok out := by
  have hkl : (verticalKeys (dedupByName tables.flatten)).length =
      (dedupByName tables.flatten).length := by simp [verticalKeys]
  have hsmall : (verticalKeys (dedupByName tables.flatten)).length ≤ 16 := by omega
  have hbr := npArgsort_small _ hsmall
  have hout2 : out = applyIdx (dedupByName tables.flatten)
      (npArgsort (verticalKeys (dedupByName tables.flatten))) := by
    rcases tables with _ | ⟨t, ts⟩
    · exact absurd rfl hne
    · have h2 : Except.ok (sortByVertical (dedupByName (List.flatten (t :: ts)))) =
          Except.ok (out : List Row) := hout
      simpa [sortByVertical] using h2.symm
  have hperm : (npArgsort (verticalKeys (dedupByName tables.flatten))).Perm
      (List.range (dedupByName tables.flatten).length) := by
    rw [hbr, ← hkl]
    exact insertionSortIdx_perm _ _
  have hpair : (npArgsort (verticalKeys (dedupByName tables.flatten))).Pairwise
      (stableRel (verticalKeys (dedupByName tables.flatten))) := by
    rw [hbr]
    exact insertionSortIdx_range_pairwise _ _
  have houtperm : out.Perm (dedupByName tables.flatten) := by
    rw [hout2]
    exact applyIdx_perm hperm
  have hlenout : out.length = (dedupByName tables.flatten).length := houtperm.length_eq
  have hnames : out.Pairwise (fun r s => r.companyName ≠ s.companyName) := by
    have hd := dedupAux_names_pairwise tables.flatten []
    exact (houtperm.pairwise_iff (fun h => fun hc => h hc.symm)).mpr hd
  have hdedout : dedupByName out = out := dedupByName_eq_self hnames
  have hsorted : out.Pairwise (fun r s => strLt s.vertical r.vertical = false) := by
    rw [hout2]
    exact applyIdx_pairwise_vertical hpair
  have hks2 : (verticalKeys out).Pairwise (fun a b => strLt b a = false) := by
    simpa [verticalKeys, List.pairwise_map] using hsorted
  have hsm2 : (verticalKeys out).length ≤ 16 := by
    simp only [verticalKeys, List.length_map, hlenout]
    exact hlen
  have hbr2 := npArgsort_small (verticalKeys out) hsm2
  have hid := insertionSortIdx_of_sorted hks2 (verticalKeys out).length (Nat.le_refl _)
  have hfl : mergeDedupSort [out] = .ok (sortByVertical (dedupByName (List.flatten [out]))) := rfl
  rw [hfl]
  have hflat : List.flatten [out] = out := by simp
  rw [hflat, hdedout, sortByVertical, hbr2, hid]
  have hvl : (verticalKeys out).length = out.length := by simp [verticalKeys]
  rw [hvl, applyIdx, map_getD_range]

/-- Witness for the amended C5 at a concrete two-table input. -/
theorem mergeDedupSort_idempotent_of_small_witness :
    mergeDedupSort [[acmeRow, mkRow "z"]] = .ok [acmeRow, mkRow "z"] :=
  mergeDedupSort_idempotent_of_small [[acmeRow], [mkRow "z"]] (by decide) (by decide)
    [acmeRow, mkRow "z"] (by decide)
